import Mathlib

/-!
Verification of the MHEDA emotion-tracker application (`app/main.py`).

Python strings are modelled as lists of Unicode code points (`List Nat`);
the ASCII fragment of `str.lower`, `str.strip`, `str.split` and of the
regular-expression character class `[^a-zA-Z\s]` is embedded explicitly.
The pre-trained vectorizer and classifier are opaque artifacts: they are
embedded as parameters (arbitrary total functions), exactly as the code
treats the values loaded from `models/*.pkl`.
-/

namespace MHEDA

/-- A Python string, as the list of its character code points. -/
abbrev PyStr := List Nat

/-- Code points of a Lean string literal, used to write concrete Python
string values readably. -/
def strToCodes (s : String) : PyStr := s.data.map Char.toNat

/-- The ASCII whitespace characters matched by the regex class `\s` and
split on by `str.split()`: space, tab, newline, carriage return,
vertical tab, form feed. -/
def isPySpace (c : Nat) : Bool :=
  c = 32 || c = 9 || c = 10 || c = 13 || c = 11 || c = 12

/-- ASCII uppercase letter (`A`-`Z`). -/
def isAsciiUpper (c : Nat) : Bool := 65 ≤ c && c ≤ 90

/-- ASCII lowercase letter (`a`-`z`). -/
def isAsciiLower (c : Nat) : Bool := 97 ≤ c && c ≤ 122

/-- ASCII letter, the character class `[a-zA-Z]` of the regex in
`clean_text`. -/
def isAsciiLetter (c : Nat) : Bool := isAsciiLower c || isAsciiUpper c

/-- `str.lower` on one character (ASCII fragment): uppercase letters map
to their lowercase counterpart, everything else is unchanged. -/
def pyLowerChar (c : Nat) : Nat := if isAsciiUpper c then c + 32 else c

/-- `text.lower()` (line 69 of `main.py`). -/
def pyLower (t : PyStr) : PyStr := t.map pyLowerChar

/-- `re.sub(r'[^a-zA-Z\s]', '', text)` (line 70): delete every character
that is neither an ASCII letter nor whitespace. -/
def subNonLetters (t : PyStr) : PyStr :=
  t.filter (fun c => isAsciiLetter c || isPySpace c)

/-- Worker for `str.split()`: scans the string keeping the current
(reversed) in-progress token in `acc`; whitespace ends a token, empty
tokens are never produced. -/
def wordsAux : PyStr → PyStr → List PyStr
  | [], acc => if acc.isEmpty then [] else [acc.reverse]
  | c :: cs, acc =>
    if isPySpace c then
      if acc.isEmpty then wordsAux cs [] else acc.reverse :: wordsAux cs []
    else wordsAux cs (c :: acc)

/-- `text.split()` (line 71): split on runs of whitespace, discarding
empty tokens (hence also leading/trailing whitespace). -/
def pySplit (t : PyStr) : List PyStr := wordsAux t []

/-- `' '.join(tokens)` (line 73): concatenate the tokens separated by a
single space. -/
def pyJoin : List PyStr → PyStr
  | [] => []
  | [w] => w
  | w :: w2 :: ws => w ++ 32 :: pyJoin (w2 :: ws)

/-- `clean_text` (lines 59-73 of `main.py`), parameterized by the NLTK
English stop-word set (an opaque fixed set of words, loaded lazily by the
function; modelled as a parameter):
lowercase, delete non-letter non-whitespace characters, split on
whitespace, drop stop-word tokens, rejoin with single spaces. -/
def clean_text (stop_words : List PyStr) (text : PyStr) : PyStr :=
  let text1 := pyLower text
  let text2 := subNonLetters text1
  let tokens := pySplit text2
  let filtered := tokens.filter (fun word => !stop_words.contains word)
  pyJoin filtered

/-- `str.strip()` (ASCII fragment): remove leading and trailing
whitespace; `not journal.strip()` on line 126 tests whether this is
empty. -/
def pyStrip (t : PyStr) : PyStr :=
  ((t.dropWhile isPySpace).reverse.dropWhile isPySpace).reverse

/-- `EMOTION_COLORS` (lines 42-47 of `main.py`): dict from emotion name
to hex color string, embedded as its association list. -/
def EMOTION_COLORS : List (PyStr × PyStr) :=
  [(strToCodes "joy", strToCodes "#FFD166"),
   (strToCodes "love", strToCodes "#EF476F"),
   (strToCodes "surprise", strToCodes "#06D6A0"),
   (strToCodes "gratitude", strToCodes "#118AB2"),
   (strToCodes "admiration", strToCodes "#073B4C"),
   (strToCodes "amusement", strToCodes "#FF9E6D"),
   (strToCodes "anger", strToCodes "#FF6B6B"),
   (strToCodes "sadness", strToCodes "#6A67CE"),
   (strToCodes "fear", strToCodes "#4ECDC4"),
   (strToCodes "neutral", strToCodes "#B8B8B8")]

/-- `label_map` (lines 49-56 of `main.py`): dict from class index to
emotion name, embedded as its association list of key/value pairs. -/
def labelPairs : List (Int × PyStr) :=
  [(0, strToCodes "admiration"), (1, strToCodes "amusement"),
   (2, strToCodes "anger"), (3, strToCodes "annoyance"),
   (4, strToCodes "approval"), (5, strToCodes "caring"),
   (6, strToCodes "confusion"), (7, strToCodes "curiosity"),
   (8, strToCodes "desire"), (9, strToCodes "disappointment"),
   (10, strToCodes "disapproval"), (11, strToCodes "disgust"),
   (12, strToCodes "embarrassment"), (13, strToCodes "excitement"),
   (14, strToCodes "fear"), (15, strToCodes "gratitude"),
   (16, strToCodes "grief"), (17, strToCodes "joy"),
   (18, strToCodes "love"), (19, strToCodes "nervousness"),
   (20, strToCodes "neutral"), (21, strToCodes "optimism"),
   (22, strToCodes "pride"), (23, strToCodes "realization"),
   (24, strToCodes "relief"), (25, strToCodes "remorse"),
   (26, strToCodes "sadness"), (27, strToCodes "surprise")]

/-- Dict lookup `label_map[i]`: `some` of the value when the key is
present, `none` (a `KeyError`, the spec's `UnknownLabelError`) when it is
not. -/
def label_map (i : Int) : Option PyStr := List.lookup i labelPairs

/-- The 28 emotion-name values of `label_map`. -/
def labelValues : List PyStr := labelPairs.map Prod.snd

/-- The emotion list `['sadness', 'grief', 'anger', 'despair']` of the
crisis-resources check on line 167 of `main.py`. -/
def crisisEmotions : List PyStr :=
  [strToCodes "sadness", strToCodes "grief",
   strToCodes "anger", strToCodes "despair"]

/-- A Python value as the opaque classifier may return it: an integer
class index or a string label. -/
inductive PyVal where
  | int : Int → PyVal
  | str : PyStr → PyVal
deriving DecidableEq

/-- The two opaque pre-trained artifacts loaded from `models/*.pkl`
(lines 19-25): `transform` is `vectorizer.transform([cleaned])` and
`predict` is `model.predict(vectorized)[0]`, over an abstract feature
vector type `F`. No property of them is assumed. -/
structure Artifacts (F : Type) where
  transform : PyStr → F
  predict : F → PyVal

/-- One record of `st.session_state.history` (lines 139-143): the dict
`{"date": datetime.now().date(), "entry": journal, "emotion": emotion}`,
the date modelled as an abstract day number. -/
structure JournalEntry where
  date : Nat
  entry : PyStr
  emotion : PyVal
deriving DecidableEq

/-- The session state: `st.session_state.history`, initially `[]`
(lines 136-137). -/
structure SessionState where
  history : List JournalEntry
deriving DecidableEq

/-- The inference pipeline applied to raw text: normalize with
`clean_text`, vectorize, predict (lines 130-132). -/
def infer {F : Type} (A : Artifacts F) (stop_words : List PyStr)
    (text : PyStr) : PyVal :=
  A.predict (A.transform (clean_text stop_words text))

/-- Whether the handler takes the warning branch for the submitted text:
`if not journal.strip():` on line 126. -/
def warnedOn (journal : PyStr) : Bool := pyStrip journal = []

/-- The analyze handler (lines 125-143 of `main.py`) as a state
transition: on empty-after-strip input it shows a warning and leaves the
state unchanged; otherwise it cleans the text, vectorizes it, predicts,
sets `emotion = prediction` and appends one record to the history. -/
def analyzeStep {F : Type} (A : Artifacts F) (stop_words : List PyStr)
    (now : Nat) (st : SessionState) (journal : PyStr) : SessionState :=
  if pyStrip journal = [] then st
  else
    let cleaned := clean_text stop_words journal
    let vectorized := A.transform cleaned
    let prediction := A.predict vectorized
    let emotion := prediction
    ⟨st.history ++ [⟨now, journal, emotion⟩]⟩

/-- Session states reachable from the initial empty history by any
sequence of journal submissions. -/
inductive Reachable {F : Type} (A : Artifacts F) (stop_words : List PyStr) :
    SessionState → Prop
  | init : Reachable A stop_words ⟨[]⟩
  | step (now : Nat) (journal : PyStr) (st : SessionState) :
      Reachable A stop_words st →
      Reachable A stop_words (analyzeStep A stop_words now st journal)

/-- The tokens of `clean_text` after stop-word filtering, named for the
proofs below; `clean_text stop t` is definitionally `pyJoin` of this. -/
def filteredTokens (stop_words : List PyStr) (text : PyStr) : List PyStr :=
  (pySplit (subNonLetters (pyLower text))).filter
    (fun word => !stop_words.contains word)

/-- No two adjacent characters of the string are both spaces. -/
def noDoubleSpace : PyStr → Bool
  | [] => true
  | [_] => true
  | a :: b :: rest => !(a == 32 && b == 32) && noDoubleSpace (b :: rest)

/-- Modelled from the spec's wording of the normalizer contract, step by
step: convert to lowercase; remove every character that is not an ASCII
letter or whitespace; split on whitespace into tokens; drop tokens
present in the stop-word set; rejoin surviving tokens with single
spaces. Stated to be compared with `clean_text`, which is embedded from
the source. -/
def spec_normalize (stop_words : List PyStr) (t : PyStr) : PyStr :=
  let lowered := pyLower t
  let kept := lowered.filter (fun c => !(!isAsciiLetter c && !isPySpace c))
  let tokens := pySplit kept
  let surviving := tokens.filter (fun word => decide (word ∉ stop_words))
  pyJoin surviving

/-- A concrete admissible artifact pair: the loaded artifacts are opaque
and unconstrained, so a classifier that always returns the value `v` is a
possible instantiation. Used for concrete counterexamples and witnesses. -/
def constArtifacts (v : PyVal) : Artifacts Unit :=
  ⟨fun _ => (), fun _ => v⟩

lemma clean_text_eq (stop_words : List PyStr) (t : PyStr) :
    clean_text stop_words t = pyJoin (filteredTokens stop_words t) := rfl

lemma map_eq_self_of {α : Type} (l : List α) (f : α → α)
    (h : ∀ c ∈ l, f c = c) : l.map f = l := by
  induction l with
  | nil => rfl
  | cons a l ih =>
    simp only [List.map_cons, h a (List.mem_cons_self a l)]
    rw [ih (fun c hc => h c (List.mem_cons_of_mem a hc))]

lemma filter_eq_self_of {α : Type} (l : List α) (p : α → Bool)
    (h : ∀ c ∈ l, p c = true) : l.filter p = l := by
  induction l with
  | nil => rfl
  | cons a l ih =>
    simp only [List.filter_cons, h a (List.mem_cons_self a l), if_pos]
    rw [ih (fun c hc => h c (List.mem_cons_of_mem a hc))]

lemma isPySpace_32 : isPySpace 32 = true := rfl

lemma pyLowerChar_not_upper (c : Nat) : isAsciiUpper (pyLowerChar c) = false := by
  simp only [pyLowerChar, isAsciiUpper]
  split
  · rename_i h
    simp only [isAsciiUpper, Bool.and_eq_true, decide_eq_true_eq] at h
    simp only [Bool.and_eq_false_iff, decide_eq_false_iff_not]
    omega
  · rename_i h
    simp only [isAsciiUpper, Bool.and_eq_true, decide_eq_true_eq] at h
    simp only [Bool.and_eq_false_iff, decide_eq_false_iff_not]
    omega

lemma isAsciiLower_of_letter_not_upper (c : Nat)
    (h1 : (isAsciiLetter c || isPySpace c) = true)
    (h2 : isAsciiUpper c = false) (h3 : isPySpace c = false) :
    isAsciiLower c = true := by
  simp only [isAsciiLetter, h2, h3, Bool.or_false] at h1
  exact h1

lemma isAsciiLower_ne_32 (c : Nat) (h : isAsciiLower c = true) : c ≠ 32 := by
  simp only [isAsciiLower, Bool.and_eq_true, decide_eq_true_eq] at h
  omega

lemma isAsciiLower_not_space (c : Nat) (h : isAsciiLower c = true) :
    isPySpace c = false := by
  simp only [isAsciiLower, Bool.and_eq_true, decide_eq_true_eq] at h
  simp only [isPySpace, Bool.or_eq_false_iff, decide_eq_false_iff_not]
  omega

lemma pyLowerChar_fix (c : Nat) (h : isAsciiLower c = true ∨ c = 32) :
    pyLowerChar c = c := by
  simp only [pyLowerChar]
  rw [if_neg]
  simp only [isAsciiUpper, Bool.and_eq_true, decide_eq_true_eq, ne_eq]
  rcases h with h | h
  · simp only [isAsciiLower, Bool.and_eq_true, decide_eq_true_eq] at h
    omega
  · omega

lemma keeps_letter_or_space (c : Nat) (h : isAsciiLower c = true ∨ c = 32) :
    (isAsciiLetter c || isPySpace c) = true := by
  rcases h with h | rfl
  · simp [isAsciiLetter, h]
  · rfl

lemma wordsAux_sound :
    ∀ (t acc : PyStr), (∀ c ∈ acc, isPySpace c = false) →
      ∀ w ∈ wordsAux t acc,
        w ≠ [] ∧ ∀ c ∈ w, isPySpace c = false ∧ (c ∈ t ∨ c ∈ acc) := by
  intro t
  induction t with
  | nil =>
    intro acc hacc w hw
    simp only [wordsAux] at hw
    split at hw
    · simp at hw
    · rename_i hne
      simp only [List.isEmpty_eq_true] at hne
      simp only [List.mem_singleton] at hw
      subst hw
      refine ⟨by simpa using hne, ?_⟩
      intro c hc
      rw [List.mem_reverse] at hc
      exact ⟨hacc c hc, Or.inr hc⟩
  | cons a cs ih =>
    intro acc hacc w hw
    simp only [wordsAux] at hw
    by_cases hsp : isPySpace a = true
    · rw [if_pos hsp] at hw
      split at hw
      · obtain ⟨hne, hc⟩ := ih [] (by simp) w hw
        refine ⟨hne, fun c hcw => ?_⟩
        obtain ⟨h1, h2⟩ := hc c hcw
        rcases h2 with h2 | h2
        · exact ⟨h1, Or.inl (List.mem_cons_of_mem a h2)⟩
        · simp at h2
      · rename_i hne
        simp only [List.isEmpty_eq_true] at hne
        rcases List.mem_cons.mp hw with rfl | hw2
        · refine ⟨by simpa using hne, fun c hc => ?_⟩
          rw [List.mem_reverse] at hc
          exact ⟨hacc c hc, Or.inr hc⟩
        · obtain ⟨hne2, hc⟩ := ih [] (by simp) w hw2
          refine ⟨hne2, fun c hcw => ?_⟩
          obtain ⟨h1, h2⟩ := hc c hcw
          rcases h2 with h2 | h2
          · exact ⟨h1, Or.inl (List.mem_cons_of_mem a h2)⟩
          · simp at h2
    · rw [if_neg hsp] at hw
      have hsp' : isPySpace a = false := by
        cases h : isPySpace a
        · rfl
        · exact absurd h hsp
      have hacc' : ∀ c ∈ a :: acc, isPySpace c = false := by
        intro c hc
        rcases List.mem_cons.mp hc with rfl | hc2
        · exact hsp'
        · exact hacc c hc2
      obtain ⟨hne, hc⟩ := ih (a :: acc) hacc' w hw
      refine ⟨hne, fun c hcw => ?_⟩
      obtain ⟨h1, h2⟩ := hc c hcw
      rcases h2 with h2 | h2
      · exact ⟨h1, Or.inl (List.mem_cons_of_mem a h2)⟩
      · rcases List.mem_cons.mp h2 with rfl | h3
        · exact ⟨h1, Or.inl (List.mem_cons_self c cs)⟩
        · exact ⟨h1, Or.inr h3⟩

lemma wordsAux_append :
    ∀ (w : PyStr), (∀ c ∈ w, isPySpace c = false) →
      ∀ (rest acc : PyStr),
        wordsAux (w ++ rest) acc = wordsAux rest (w.reverse ++ acc) := by
  intro w
  induction w with
  | nil => intro _ rest acc; simp
  | cons a w ih =>
    intro hw rest acc
    have ha : isPySpace a = false := hw a (List.mem_cons_self a w)
    have ih' := ih (fun c hc => hw c (List.mem_cons_of_mem a hc)) rest (a :: acc)
    simp only [List.cons_append, wordsAux, ha, Bool.false_eq_true, if_false,
      List.append_eq]
    rw [ih']
    simp [List.append_assoc]

lemma pySplit_pyJoin :
    ∀ (ws : List PyStr),
      (∀ w ∈ ws, w ≠ [] ∧ ∀ c ∈ w, isPySpace c = false) →
      pySplit (pyJoin ws) = ws := by
  intro ws
  induction ws with
  | nil => intro _; rfl
  | cons w rest ih =>
    intro h
    obtain ⟨hw_ne, hw_sp⟩ := h w (List.mem_cons_self w rest)
    cases rest with
    | nil =>
      show pySplit (pyJoin [w]) = [w]
      have hjw : pyJoin [w] = w ++ [] := by simp [pyJoin]
      rw [pySplit, hjw, wordsAux_append w hw_sp [] []]
      simp only [wordsAux, List.append_nil, List.isEmpty_eq_true,
        List.reverse_eq_nil_iff]
      rw [if_neg hw_ne]
      simp
    | cons w2 rest2 =>
      show pySplit (w ++ 32 :: pyJoin (w2 :: rest2)) = w :: w2 :: rest2
      rw [pySplit, wordsAux_append w hw_sp]
      simp only [List.append_nil, wordsAux, isPySpace_32, if_true]
      rw [if_neg (by simp [List.isEmpty_eq_true, hw_ne])]
      have ihr := ih (fun u hu => h u (List.mem_cons_of_mem w hu))
      rw [pySplit] at ihr
      rw [ihr]
      simp

lemma pyJoin_ne_nil (w : PyStr) (ws : List PyStr) (hw : w ≠ []) :
    pyJoin (w :: ws) ≠ [] := by
  cases ws with
  | nil => simpa [pyJoin] using hw
  | cons w2 rest => simp [pyJoin]

lemma pyJoin_head (w : PyStr) (ws : List PyStr) (hw : w ≠ []) :
    (pyJoin (w :: ws)).head? = w.head? := by
  cases ws with
  | nil => rfl
  | cons w2 rest =>
    show (w ++ 32 :: pyJoin (w2 :: rest)).head? = w.head?
    exact List.head?_append_of_ne_nil _ hw

lemma mem_pyJoin :
    ∀ (ws : List PyStr) (c : Nat), c ∈ pyJoin ws →
      c = 32 ∨ ∃ w ∈ ws, c ∈ w := by
  intro ws
  induction ws with
  | nil => intro c hc; simp [pyJoin] at hc
  | cons w rest ih =>
    intro c hc
    cases rest with
    | nil =>
      right
      exact ⟨w, List.mem_cons_self w [], hc⟩
    | cons w2 rest2 =>
      simp only [pyJoin] at hc
      rcases List.mem_append.mp hc with h | h
      · right; exact ⟨w, List.mem_cons_self w _, h⟩
      · rcases List.mem_cons.mp h with rfl | h2
        · left; rfl
        · rcases ih c h2 with h3 | ⟨w', hw', hc'⟩
          · left; exact h3
          · right; exact ⟨w', List.mem_cons_of_mem w hw', hc'⟩

lemma pyJoin_getLast_ne :
    ∀ (ws : List PyStr),
      (∀ w ∈ ws, w ≠ [] ∧ ∀ c ∈ w, c ≠ 32) →
      ∀ c, (pyJoin ws).getLast? = some c → c ≠ 32 := by
  intro ws
  induction ws with
  | nil => intro _ c hc; simp [pyJoin] at hc
  | cons w rest ih =>
    intro h c hc
    cases rest with
    | nil =>
      obtain ⟨hw_ne, hw_c⟩ := h w (List.mem_cons_self w [])
      have hmem : c ∈ w := by
        have : c ∈ (pyJoin [w]).getLast? := hc
        have h2 : c ∈ w.getLast? := this
        obtain ⟨hne, heq⟩ := List.mem_getLast?_eq_getLast h2
        rw [heq]
        exact List.getLast_mem hne
      exact hw_c c hmem
    | cons w2 rest2 =>
      have hJne := pyJoin_ne_nil w2 rest2 (h w2 (by simp)).1
      obtain ⟨x, l', hJ⟩ := List.exists_cons_of_ne_nil hJne
      have hc2 : (pyJoin (w2 :: rest2)).getLast? = some c := by
        have : (w ++ 32 :: pyJoin (w2 :: rest2)).getLast? = some c := hc
        rw [List.getLast?_append_cons, hJ, List.getLast?_cons_cons] at this
        rw [hJ]
        exact this
      exact ih (fun u hu => h u (List.mem_cons_of_mem w hu)) c hc2

lemma noDoubleSpace_append (w : PyStr) (hw : ∀ c ∈ w, c ≠ 32)
    (t : PyStr) (ht : noDoubleSpace t = true) :
    noDoubleSpace (w ++ t) = true := by
  induction w with
  | nil => simpa
  | cons a w ih =>
    have ha : a ≠ 32 := hw a (List.mem_cons_self a w)
    have hab : (a == 32) = false := by simpa using ha
    have ih' := ih (fun c hc => hw c (List.mem_cons_of_mem a hc))
    rw [List.cons_append]
    cases hwt : w ++ t with
    | nil => rfl
    | cons b rest =>
      rw [hwt] at ih'
      simp [noDoubleSpace, hab, ih']

lemma noDoubleSpace_pyJoin :
    ∀ (ws : List PyStr),
      (∀ w ∈ ws, w ≠ [] ∧ ∀ c ∈ w, c ≠ 32) →
      noDoubleSpace (pyJoin ws) = true := by
  intro ws
  induction ws with
  | nil => intro _; rfl
  | cons w rest ih =>
    intro h
    obtain ⟨hw_ne, hw_c⟩ := h w (List.mem_cons_self w rest)
    cases rest with
    | nil =>
      have hjw : pyJoin [w] = w ++ [] := by simp [pyJoin]
      rw [hjw]
      exact noDoubleSpace_append w hw_c [] rfl
    | cons w2 rest2 =>
      show noDoubleSpace (w ++ 32 :: pyJoin (w2 :: rest2)) = true
      apply noDoubleSpace_append w hw_c
      have hJne := pyJoin_ne_nil w2 rest2 (h w2 (by simp)).1
      obtain ⟨x, l', hJ⟩ := List.exists_cons_of_ne_nil hJne
      rw [hJ]
      have hx : x ≠ 32 := by
        have hh := pyJoin_head w2 rest2 (h w2 (by simp)).1
        rw [hJ] at hh
        have hx_mem : x ∈ w2 := by
          apply List.mem_of_mem_head?
          rw [← hh]
          rfl
        exact (h w2 (by simp)).2 x hx_mem
      have hxb : (x == 32) = false := by simpa using hx
      have hrest : noDoubleSpace (x :: l') = true := by
        rw [← hJ]
        exact ih (fun u hu => h u (List.mem_cons_of_mem w hu))
      simp [noDoubleSpace, hxb, hrest]

lemma filteredTokens_good (stop_words : List PyStr) (t : PyStr) :
    ∀ w ∈ filteredTokens stop_words t,
      w ≠ [] ∧ ∀ c ∈ w, isAsciiLower c = true := by
  intro w hw
  have hw2 : w ∈ pySplit (subNonLetters (pyLower t)) :=
    List.mem_of_mem_filter hw
  obtain ⟨hne, hc⟩ :=
    wordsAux_sound (subNonLetters (pyLower t)) [] (by simp) w hw2
  refine ⟨hne, fun c hcw => ?_⟩
  obtain ⟨hsp, hmem⟩ := hc c hcw
  have hmem2 : c ∈ subNonLetters (pyLower t) := by
    rcases hmem with h | h
    · exact h
    · simp at h
  have hmem3 :
      c ∈ List.filter (fun c => isAsciiLetter c || isPySpace c) (pyLower t) :=
    hmem2
  have hkeep : (isAsciiLetter c || isPySpace c) = true :=
    (List.mem_filter.mp hmem3).2
  have hlow : c ∈ pyLower t := (List.mem_filter.mp hmem3).1
  obtain ⟨c0, _, hc0⟩ := List.mem_map.mp hlow
  have hup : isAsciiUpper c = false := by
    rw [← hc0]
    exact pyLowerChar_not_upper c0
  exact isAsciiLower_of_letter_not_upper c hkeep hup hsp

lemma filteredTokens_not_stop (stop_words : List PyStr) (t : PyStr) :
    ∀ w ∈ filteredTokens stop_words t, stop_words.contains w = false := by
  intro w hw
  have := List.of_mem_filter hw
  simpa using this

lemma clean_text_split (stop_words : List PyStr) (t : PyStr) :
    pySplit (clean_text stop_words t) = filteredTokens stop_words t := by
  rw [clean_text_eq]
  apply pySplit_pyJoin
  intro w hw
  obtain ⟨hne, hc⟩ := filteredTokens_good stop_words t w hw
  exact ⟨hne, fun c hcw => isAsciiLower_not_space c (hc c hcw)⟩

lemma clean_text_chars (stop_words : List PyStr) (t : PyStr) :
    ∀ c ∈ clean_text stop_words t, isAsciiLower c = true ∨ c = 32 := by
  intro c hc
  rw [clean_text_eq] at hc
  rcases mem_pyJoin _ c hc with h | ⟨w, hw, hcw⟩
  · right; exact h
  · left; exact (filteredTokens_good stop_words t w hw).2 c hcw

lemma pyStrip_eq_nil (j : PyStr) (h : ∀ c ∈ j, isPySpace c = true) :
    pyStrip j = [] := by
  rw [pyStrip, List.dropWhile_eq_nil_iff.mpr h]
  rfl

lemma analyzeStep_of_ne (F : Type) (A : Artifacts F)
    (stop_words : List PyStr) (now : Nat) (st : SessionState)
    (journal : PyStr) (h : pyStrip journal ≠ []) :
    analyzeStep A stop_words now st journal =
      ⟨st.history ++ [⟨now, journal, infer A stop_words journal⟩]⟩ := by
  rw [analyzeStep, if_neg h]
  rfl

lemma lookup_eq_none_of {β : Type} (i : Int) :
    ∀ (l : List (Int × β)), (∀ p ∈ l, p.1 ≠ i) → List.lookup i l = none := by
  intro l
  induction l with
  | nil => intro _; rfl
  | cons p es ih =>
    intro h
    obtain ⟨k, v⟩ := p
    have hk : k ≠ i := h ⟨k, v⟩ (List.mem_cons_self _ _)
    have hbeq : (i == k) = false := beq_eq_false_iff_ne.mpr (Ne.symm hk)
    rw [List.lookup_cons, hbeq]
    exact ih (fun q hq => h q (List.mem_cons_of_mem _ hq))

/-- C2 (confirmed): for every raw input string, `clean_text` computes
exactly the five claimed steps: lowercase; delete every character that is
neither an ASCII letter nor whitespace; split on whitespace; remove
stop-word tokens; rejoin with single spaces — it equals the step-by-step
normalizer written from the spec's wording. -/
theorem clean_text_matches_spec_steps (stop_words : List PyStr) (t : PyStr) :
    clean_text stop_words t = spec_normalize stop_words t := by
  simp only [clean_text, spec_normalize, subNonLetters]
  have hchar :
      (fun c => !(!isAsciiLetter c && !isPySpace c)) =
        (fun c => isAsciiLetter c || isPySpace c) := by
    funext c
    cases isAsciiLetter c <;> cases isPySpace c <;> rfl
  have hstop :
      (fun word : PyStr => decide (word ∉ stop_words)) =
        (fun word : PyStr => !stop_words.contains word) := by
    funext w
    by_cases hw : w ∈ stop_words <;> simp [hw, List.contains]
  rw [hchar, hstop]

/-- C3 (confirmed): for every input, the output of `clean_text` contains
only lowercase ASCII letters and single spaces — no leading, trailing or
double spaces — and no stop word of the set occurs in it as a standalone
token. -/
theorem clean_text_output_shape (stop_words : List PyStr) (t : PyStr) :
    (∀ c ∈ clean_text stop_words t, isAsciiLower c = true ∨ c = 32) ∧
    noDoubleSpace (clean_text stop_words t) = true ∧
    (clean_text stop_words t).head? ≠ some 32 ∧
    (clean_text stop_words t).getLast? ≠ some 32 ∧
    ∀ w ∈ pySplit (clean_text stop_words t), w ∉ stop_words := by
  have hgood32 : ∀ w ∈ filteredTokens stop_words t,
      w ≠ [] ∧ ∀ c ∈ w, c ≠ 32 := by
    intro w hw
    obtain ⟨hne, hc⟩ := filteredTokens_good stop_words t w hw
    exact ⟨hne, fun c hcw => isAsciiLower_ne_32 c (hc c hcw)⟩
  refine ⟨clean_text_chars stop_words t, ?_, ?_, ?_, ?_⟩
  · rw [clean_text_eq]
    exact noDoubleSpace_pyJoin _ hgood32
  · rw [clean_text_eq]
    cases htoks : filteredTokens stop_words t with
    | nil => simp [pyJoin]
    | cons w ws =>
      have hw : w ∈ filteredTokens stop_words t := by
        rw [htoks]; exact List.mem_cons_self w ws
      obtain ⟨hne, hc⟩ := filteredTokens_good stop_words t w hw
      rw [pyJoin_head w ws hne]
      cases w with
      | nil => exact absurd rfl hne
      | cons c cs =>
        intro hcontra
        have hc32 : c = 32 := by simpa using hcontra
        exact isAsciiLower_ne_32 c (hc c (List.mem_cons_self c cs)) hc32
  · rw [clean_text_eq]
    intro hlast
    exact pyJoin_getLast_ne _ hgood32 32 hlast rfl
  · rw [clean_text_split]
    intro w hw
    have hcont := filteredTokens_not_stop stop_words t w hw
    simpa [List.contains] using hcont

/-- C10 (confirmed): `clean_text` is idempotent — its output is already
lowercase, letters-and-single-spaces only, and free of stop-word tokens,
so cleaning it again changes nothing. -/
theorem clean_text_idempotent (stop_words : List PyStr) (t : PyStr) :
    clean_text stop_words (clean_text stop_words t) =
      clean_text stop_words t := by
  have h1 : pyLower (clean_text stop_words t) = clean_text stop_words t :=
    map_eq_self_of _ _
      (fun c hc => pyLowerChar_fix c (clean_text_chars stop_words t c hc))
  have h2 : subNonLetters (clean_text stop_words t) =
      clean_text stop_words t := by
    rw [subNonLetters]
    exact filter_eq_self_of _ _
      (fun c hc => keeps_letter_or_space c (clean_text_chars stop_words t c hc))
  have h3 : pySplit (clean_text stop_words t) = filteredTokens stop_words t :=
    clean_text_split stop_words t
  have h4 : (filteredTokens stop_words t).filter
      (fun word => !stop_words.contains word) = filteredTokens stop_words t :=
    filter_eq_self_of _ _
      (fun w hw => by rw [filteredTokens_not_stop stop_words t w hw]; rfl)
  calc clean_text stop_words (clean_text stop_words t)
      = pyJoin ((pySplit (subNonLetters (pyLower (clean_text stop_words t)))).filter
          (fun word => !stop_words.contains word)) := rfl
    _ = pyJoin (filteredTokens stop_words t) := by rw [h1, h2, h3, h4]
    _ = clean_text stop_words t := (clean_text_eq stop_words t).symm

/-- C4 (confirmed): the `label_map` lookup is defined (returns a value)
for every integer in `[0, 27]`, and for every integer outside that range
the lookup fails — the dict raises a `KeyError`, the spec's
`UnknownLabelError` — rather than returning a value. -/
theorem label_map_total_on_range (i : Int) :
    (0 ≤ i → i ≤ 27 → (label_map i).isSome = true) ∧
    ((i < 0 ∨ 27 < i) → label_map i = none) := by
  constructor
  · intro h1 h2
    interval_cases i <;> rfl
  · intro h
    have hkeys : ∀ p ∈ labelPairs, 0 ≤ p.1 ∧ p.1 ≤ 27 := by decide
    rw [label_map]
    apply lookup_eq_none_of
    intro p hp
    have := hkeys p hp
    omega

/-- Witness for C4: index `5` resolves, index `-3` fails. -/
theorem label_map_total_on_range_witness :
    (label_map 5).isSome = true ∧ label_map (-3) = none :=
  ⟨(label_map_total_on_range 5).1 (by norm_num) (by norm_num),
   (label_map_total_on_range (-3)).2 (Or.inl (by norm_num))⟩

/-- C9 (confirmed): the string `"despair"` is in the crisis-resources
emotion list of line 167, but is neither a value of the 28-entry
`label_map` nor a key of `EMOTION_COLORS`. -/
theorem despair_inconsistency :
    strToCodes "despair" ∈ crisisEmotions ∧
    strToCodes "despair" ∉ labelValues ∧
    strToCodes "despair" ∉ EMOTION_COLORS.map Prod.fst := by
  refine ⟨by decide, by decide, by decide⟩

/-- C1 (counterexample): the claim is false on the code. With an
admissible classifier returning the class index `0`, the handler records
the raw prediction `0` itself as the emotion; `label_map` maps `0` to
`"admiration"`, and the recorded value is not that string, so the
predicted index is not resolved through the 28-entry table before being
recorded. -/
theorem analyze_records_raw_prediction_not_label_map :
    (analyzeStep (constArtifacts (PyVal.int 0)) [] 0 ⟨[]⟩
        (strToCodes "hello")).history =
      [⟨0, strToCodes "hello", PyVal.int 0⟩] ∧
    label_map 0 = some (strToCodes "admiration") ∧
    PyVal.int 0 ≠ PyVal.str (strToCodes "admiration") := by
  refine ⟨by decide, by decide, by decide⟩

/-- C1 (amended, proved): for every artifact pair and every non-blank
journal submission, the handler obtains a single predicted value from the
classifier and records that value directly as the emotion
(`emotion = prediction`, line 133); the static 28-entry `label_map` is
defined but never consulted. -/
theorem analyze_emotion_is_raw_prediction {F : Type} (A : Artifacts F)
    (stop_words : List PyStr) (now : Nat) (st : SessionState)
    (journal : PyStr) (h : pyStrip journal ≠ []) :
    (analyzeStep A stop_words now st journal).history =
      st.history ++
        [⟨now, journal,
          A.predict (A.transform (clean_text stop_words journal))⟩] := by
  rw [analyzeStep_of_ne F A stop_words now st journal h]
  rfl

/-- Witness for the amended C1 at a concrete artifact pair and input. -/
theorem analyze_emotion_is_raw_prediction_witness :
    (analyzeStep (constArtifacts (PyVal.str (strToCodes "joy"))) [] 3 ⟨[]⟩
        (strToCodes "hi")).history =
      [⟨3, strToCodes "hi",
        (constArtifacts (PyVal.str (strToCodes "joy"))).predict
          ((constArtifacts (PyVal.str (strToCodes "joy"))).transform
            (clean_text [] (strToCodes "hi")))⟩] :=
  analyze_emotion_is_raw_prediction
    (constArtifacts (PyVal.str (strToCodes "joy"))) [] 3 ⟨[]⟩
    (strToCodes "hi") (by decide)

/-- C5 (counterexample): the claim is false on the code as an
unconditional invariant. With an admissible classifier returning the
string `"despair"`, a reachable session state records an emotion that is
not among the 28 values of the label table — nothing in the handler
checks membership. -/
theorem history_emotion_can_leave_table :
    (analyzeStep (constArtifacts (PyVal.str (strToCodes "despair"))) [] 0 ⟨[]⟩
        (strToCodes "sad day")).history =
      [⟨0, strToCodes "sad day", PyVal.str (strToCodes "despair")⟩] ∧
    PyVal.str (strToCodes "despair") ∉ labelValues.map PyVal.str := by
  refine ⟨by decide, by decide⟩

/-- C5 (amended, proved): the invariant holds exactly under the spec's
side condition on the artifact: if the classifier only ever returns
values of the static label table, then in every reachable session state
every history entry's emotion is one of the 28 table values. -/
theorem history_emotion_in_table_of_predict_range {F : Type}
    (A : Artifacts F) (stop_words : List PyStr)
    (hA : ∀ f, A.predict f ∈ labelValues.map PyVal.str)
    (st : SessionState) (hst : Reachable A stop_words st) :
    ∀ e ∈ st.history, e.emotion ∈ labelValues.map PyVal.str := by
  induction hst with
  | init => intro e he; simp at he
  | step now journal st' hst' ih =>
    intro e he
    by_cases h : pyStrip journal = []
    · rw [analyzeStep, if_pos h] at he
      exact ih e he
    · rw [analyzeStep_of_ne F A stop_words now st' journal h] at he
      rcases List.mem_append.mp he with h2 | h2
      · exact ih e h2
      · simp only [List.mem_singleton] at h2
        subst h2
        exact hA _

/-- Witness for the amended C5 at a concrete in-table classifier and a
concrete reachable one-entry state. -/
theorem history_emotion_in_table_of_predict_range_witness :
    (⟨7, strToCodes "hello", PyVal.str (strToCodes "joy")⟩ :
      JournalEntry).emotion ∈ labelValues.map PyVal.str :=
  history_emotion_in_table_of_predict_range
    (constArtifacts (PyVal.str (strToCodes "joy"))) []
    (fun f => by
      show PyVal.str (strToCodes "joy") ∈ labelValues.map PyVal.str
      decide)
    (analyzeStep (constArtifacts (PyVal.str (strToCodes "joy"))) [] 7 ⟨[]⟩
      (strToCodes "hello"))
    (Reachable.step 7 (strToCodes "hello") ⟨[]⟩ Reachable.init)
    ⟨7, strToCodes "hello", PyVal.str (strToCodes "joy")⟩
    (by decide)

/-- C6 (confirmed): for a fixed artifact pair the end-to-end inference is
deterministic — analysing the same text from any two session states at
any two times records exactly the label `infer A stop_words journal` both
times, so two evaluations of `infer(normalize(t))` yield the same
emotion. -/
theorem infer_deterministic {F : Type} (A : Artifacts F)
    (stop_words : List PyStr) (st1 st2 : SessionState) (d1 d2 : Nat)
    (journal : PyStr) (h : pyStrip journal ≠ []) :
    (analyzeStep A stop_words d1 st1 journal).history.getLast? =
      some ⟨d1, journal, infer A stop_words journal⟩ ∧
    (analyzeStep A stop_words d2 st2 journal).history.getLast? =
      some ⟨d2, journal, infer A stop_words journal⟩ := by
  rw [analyzeStep_of_ne F A stop_words d1 st1 journal h,
      analyzeStep_of_ne F A stop_words d2 st2 journal h]
  exact ⟨List.getLast?_concat _, List.getLast?_concat _⟩

/-- Witness for C6: the same text analysed from the empty state and from
a non-empty state records the same label. -/
theorem infer_deterministic_witness :
    (analyzeStep (constArtifacts (PyVal.int 3)) [] 1 ⟨[]⟩
        (strToCodes "ok")).history.getLast? =
      some ⟨1, strToCodes "ok",
        infer (constArtifacts (PyVal.int 3)) [] (strToCodes "ok")⟩ ∧
    (analyzeStep (constArtifacts (PyVal.int 3)) [] 2
        ⟨[⟨0, strToCodes "x", PyVal.int 9⟩]⟩
        (strToCodes "ok")).history.getLast? =
      some ⟨2, strToCodes "ok",
        infer (constArtifacts (PyVal.int 3)) [] (strToCodes "ok")⟩ :=
  infer_deterministic (constArtifacts (PyVal.int 3)) [] ⟨[]⟩
    ⟨[⟨0, strToCodes "x", PyVal.int 9⟩]⟩ 1 2 (strToCodes "ok") (by decide)

/-- C7 (confirmed): for whitespace-only (in particular empty) raw input
the handler shows the warning and leaves the session state unchanged — no
history entry is created and the pipeline is not invoked; the core
pipeline itself is total on empty normalized text and still produces a
label. -/
theorem empty_input_guard {F : Type} (A : Artifacts F)
    (stop_words : List PyStr) (now : Nat) (st : SessionState)
    (journal : PyStr) (h : ∀ c ∈ journal, isPySpace c = true) :
    analyzeStep A stop_words now st journal = st ∧
    warnedOn journal = true ∧
    infer A stop_words [] = A.predict (A.transform []) := by
  have hs : pyStrip journal = [] := pyStrip_eq_nil journal h
  refine ⟨?_, ?_, rfl⟩
  · rw [analyzeStep, if_pos hs]
  · simp [warnedOn, hs]

/-- Witness for C7 at a concrete whitespace-only input. -/
theorem empty_input_guard_witness :
    analyzeStep (constArtifacts (PyVal.int 1)) [] 0 ⟨[]⟩
        (strToCodes "  ") = ⟨[]⟩ ∧
    warnedOn (strToCodes "  ") = true ∧
    infer (constArtifacts (PyVal.int 1)) [] [] =
      (constArtifacts (PyVal.int 1)).predict
        ((constArtifacts (PyVal.int 1)).transform []) :=
  empty_input_guard (constArtifacts (PyVal.int 1)) [] 0 ⟨[]⟩
    (strToCodes "  ") (by decide)

/-- C8 (confirmed): each successful analysis appends exactly one
`{date, entry, emotion}` record at the end of the history, leaving every
earlier entry unchanged; two consecutive analyses of identical input
append two distinct entries with identical emotions and
increasing-or-equal timestamps. -/
theorem analyze_appends_single_entry {F : Type} (A : Artifacts F)
    (stop_words : List PyStr) (st : SessionState) (journal : PyStr)
    (d1 d2 : Nat) (h : pyStrip journal ≠ []) (hd : d1 ≤ d2) :
    (analyzeStep A stop_words d1 st journal).history =
      st.history ++ [⟨d1, journal, infer A stop_words journal⟩] ∧
    (analyzeStep A stop_words d2
        (analyzeStep A stop_words d1 st journal) journal).history =
      st.history ++ [⟨d1, journal, infer A stop_words journal⟩,
                     ⟨d2, journal, infer A stop_words journal⟩] ∧
    (⟨d1, journal, infer A stop_words journal⟩ : JournalEntry).emotion =
      (⟨d2, journal, infer A stop_words journal⟩ : JournalEntry).emotion ∧
    (⟨d1, journal, infer A stop_words journal⟩ : JournalEntry).date ≤
      (⟨d2, journal, infer A stop_words journal⟩ : JournalEntry).date := by
  refine ⟨?_, ?_, rfl, hd⟩
  · rw [analyzeStep_of_ne F A stop_words d1 st journal h]
  · rw [analyzeStep_of_ne F A stop_words d1 st journal h,
        analyzeStep_of_ne F A stop_words d2 _ journal h]
    simp

/-- Witness for C8 at concrete artifacts, input and dates. -/
theorem analyze_appends_single_entry_witness :
    (analyzeStep (constArtifacts (PyVal.int 4)) [] 1 ⟨[]⟩
        (strToCodes "hey")).history =
      [⟨1, strToCodes "hey", infer (constArtifacts (PyVal.int 4)) []
          (strToCodes "hey")⟩] ∧
    (analyzeStep (constArtifacts (PyVal.int 4)) [] 2
        (analyzeStep (constArtifacts (PyVal.int 4)) [] 1 ⟨[]⟩
          (strToCodes "hey")) (strToCodes "hey")).history =
      [⟨1, strToCodes "hey", infer (constArtifacts (PyVal.int 4)) []
          (strToCodes "hey")⟩,
       ⟨2, strToCodes "hey", infer (constArtifacts (PyVal.int 4)) []
          (strToCodes "hey")⟩] ∧
    (⟨1, strToCodes "hey", infer (constArtifacts (PyVal.int 4)) []
        (strToCodes "hey")⟩ : JournalEntry).emotion =
      (⟨2, strToCodes "hey", infer (constArtifacts (PyVal.int 4)) []
        (strToCodes "hey")⟩ : JournalEntry).emotion ∧
    (⟨1, strToCodes "hey", infer (constArtifacts (PyVal.int 4)) []
        (strToCodes "hey")⟩ : JournalEntry).date ≤
      (⟨2, strToCodes "hey", infer (constArtifacts (PyVal.int 4)) []
        (strToCodes "hey")⟩ : JournalEntry).date :=
  analyze_appends_single_entry (constArtifacts (PyVal.int 4)) [] ⟨[]⟩
    (strToCodes "hey") 1 2 (by decide) (by norm_num)

end MHEDA
